import Mathlib

/-!
Shallow embedding of the contour-to-mask conversion core of the `dicomset`
repository (`mymi/dataset/dicom/dicom_patient.py`, `mymi/dataset/dicom/ct_series.py`,
`mymi/dataset/dicom/region_map.py`, `mymi/dataset/raw/dicom/rtstruct_series.py`),
together with theorems settling the specification claims about it.
Physical quantities (millimetre coordinates, spacings, HU rescale factors) are
modelled as exact rationals; Python's `round` (banker's rounding) and `int`
(truncation toward zero) are modelled explicitly.
-/

/-- Python/numpy `round(x)` to the nearest integer, with halves going to the
even neighbour (banker's rounding), on exact rationals. -/
def roundHalfEven (q : ℚ) : ℤ :=
  if q - ⌊q⌋ < 1/2 then ⌊q⌋
  else if (1:ℚ)/2 < q - ⌊q⌋ then ⌊q⌋ + 1
  else if 2 ∣ ⌊q⌋ then ⌊q⌋ else ⌊q⌋ + 1

/-- Python `round(x, 2)`: round to 2 decimal places, halves to even. -/
def round2 (q : ℚ) : ℚ := (roundHalfEven (100 * q) : ℚ) / 100

/-- Python `int(x)` on a float: truncation toward zero. -/
def pyTrunc (q : ℚ) : ℤ := if 0 ≤ q then ⌊q⌋ else -⌊-q⌋

/-- `np.diff`: differences of consecutive elements. -/
def consecDiffs (l : List ℚ) : List ℚ := List.zipWith (fun a b => b - a) l l.tail

/-- `sorted(z_offsets)`: Python's stable sort on the slice z positions. -/
def sortQ (l : List ℚ) : List ℚ := List.insertionSort (· ≤ ·) l

/-- `DicomPatient.ct_summary`, z-spacing:
`np.min([round(s, 2) for s in np.diff(sorted(z_offsets))])`.
`none` models numpy's failure on an empty list (fewer than 2 slices). -/
def ctSummarySpacingZ (zs : List ℚ) : Option ℚ :=
  ((consecDiffs (sortQ zs)).map round2).min?

/-- The rounded consecutive differences of the sorted z positions
(the list `np.min` is taken over in `ct_summary`). -/
def roundedDiffs (zs : List ℚ) : List ℚ := (consecDiffs (sortQ zs)).map round2

/-- The z-geometry fields of the table returned by `DicomPatient.ct_summary`. -/
structure CTSummary where
  spacingZ : ℚ
  fovZ : ℚ
  sizeZ : ℤ
  numMissing : ℤ
deriving DecidableEq, Repr

/-- `DicomPatient.ct_summary`, z-direction fields: z-spacing as above,
`z_fov = np.max(z_offsets) - np.min(z_offsets)`,
`z_size = int(round(z_fov / z_spacing, 0) + 1)`, and
`num-missing = z_size - len(cts)`, all placed in the returned table. -/
def ctSummary (zs : List ℚ) : Option CTSummary :=
  match ctSummarySpacingZ zs, zs.max?, zs.min? with
  | some sp, some zmax, some zmin =>
    let fov := zmax - zmin
    let size := roundHalfEven (fov / sp) + 1
    some { spacingZ := sp, fovZ := fov, sizeZ := size, numMissing := size - zs.length }
  | _, _, _ => none

/-- One CT slice as seen by `CTSeries`: its `ImagePositionPatient` physical
position, in-plane `PixelSpacing`, raw pixel grid and rescale affine. -/
structure CTSlice where
  posX : ℚ
  posY : ℚ
  posZ : ℚ
  spacingX : ℚ
  spacingY : ℚ
  pixel : ℕ → ℕ → ℤ
  slope : ℚ
  intercept : ℚ

/-- `CTSeries.get_cts`: slices sorted (stably) by z position. -/
def getCts (slices : List CTSlice) : List CTSlice :=
  List.insertionSort (fun a b => a.posZ ≤ b.posZ) slices

/-- `CTSeries.offset`: `tuple(int(s) for s in cts[0].ImagePositionPatient)` —
each coordinate of the first sorted slice's position truncated to an integer. -/
def ctSeriesOffset (slices : List CTSlice) : Option (ℤ × ℤ × ℤ) :=
  (getCts slices).head?.map fun c => (pyTrunc c.posX, pyTrunc c.posY, pyTrunc c.posZ)

/-- `CTSeries.spacing`, z component:
`np.abs(cts[1].ImagePositionPatient[2] - cts[0].ImagePositionPatient[2])`. -/
def ctSeriesSpacingZ (slices : List CTSlice) : Option ℚ :=
  match getCts slices with
  | c0 :: c1 :: _ => some |c1.posZ - c0.posZ|
  | _ => none

/-- The z-index at which `CTSeries.data` places a slice:
`int(round((ct.ImagePositionPatient[2] - offset[2]) / spacing[2]))`, with
`offset` the truncated `CTSeries.offset`. -/
def ctSeriesZIdx (slices : List CTSlice) (c : CTSlice) : Option ℤ :=
  match ctSeriesOffset slices, ctSeriesSpacingZ slices with
  | some off, some sp => some (roundHalfEven ((c.posZ - (off.2.2 : ℚ)) / sp))
  | _, _ => none

/-- `CTSeries.data`: fold over the sorted slices, placing each slice's rescaled
in-plane data at its computed z-index (later slices overwrite earlier ones at a
colliding index, as in the numpy assignment).  The volume is modelled as the map
from z-index to the slice whose data occupies that plane. -/
def ctSeriesData (slices : List CTSlice) : Option (ℤ → Option CTSlice) :=
  match ctSeriesOffset slices, ctSeriesSpacingZ slices with
  | some off, some sp =>
      some ((getCts slices).foldl
        (fun vol c z =>
          if z = roundHalfEven ((c.posZ - (off.2.2 : ℚ)) / sp) then some c else vol z)
        (fun _ => none))
  | _, _ => none

/-- The rescaled in-plane value written by `CTSeries.data` (and
`DicomPatient.ct_data`) for one slice:
`ct.RescaleSlope * np.transpose(ct.pixel_array) + ct.RescaleIntercept`. -/
def sliceHU (c : CTSlice) (x y : ℕ) : ℚ := c.slope * (c.pixel y x : ℚ) + c.intercept

/-- The voxel geometry `DicomPatient.label_data` reads from `ct_summary`:
offsets and spacings per axis. -/
structure Geometry where
  offX : ℚ
  offY : ℚ
  offZ : ℚ
  spX : ℚ
  spY : ℚ
  spZ : ℚ

/-- One RTSTRUCT contour: its `ContourGeometricType` tag and its vertex list
(`ContourData` reshaped to (x, y, z) triplets).  The code indexes
`vertices[0, 2]`, so a contour is modelled with at least one vertex. -/
structure Contour where
  geomType : String
  v0 : ℚ × ℚ × ℚ
  vrest : List (ℚ × ℚ × ℚ)

/-- All vertices of a contour. -/
def Contour.vertices (c : Contour) : List (ℚ × ℚ × ℚ) := c.v0 :: c.vrest

/-- A region mask: a boolean value per (x, y, z) voxel index. -/
def Mask : Type := ℕ × ℕ × ℤ → Bool

/-- The in-plane pixel set of a contour, as computed in `label_data`: vertices
converted to fractional voxel coordinates
`((x - offset.x)/spacing.x, (y - offset.y)/spacing.y)` and handed to
`skimage.draw.polygon`, which is kept abstract as the parameter `poly`
(external library code). -/
def contourPixels (poly : List (ℚ × ℚ) → Finset (ℕ × ℕ)) (g : Geometry)
    (c : Contour) : Finset (ℕ × ℕ) :=
  poly (c.vertices.map fun v => ((v.1 - g.offX) / g.spX, (v.2.1 - g.offY) / g.spY))

/-- The z-plane index `label_data` assigns to a contour:
`z_idx = int((vertices[0, 2] - offset.z) / spacing.z)` — Python `int()`
truncation of the quotient formed from the FIRST vertex's z only. -/
def contourZIdx (g : Geometry) (c : Contour) : ℤ :=
  pyTrunc ((c.v0.2.2 - g.offZ) / g.spZ)

/-- Whether a voxel is touched by a contour's rasterization: it lies on the
contour's z-plane and its (x, y) pixel is in the contour's polygon fill. -/
def contourCovers (poly : List (ℚ × ℚ) → Finset (ℕ × ℕ)) (g : Geometry)
    (c : Contour) (v : ℕ × ℕ × ℤ) : Bool :=
  decide (v.2.2 = contourZIdx g c) && decide ((v.1, v.2.1) ∈ contourPixels poly g c)

/-- The numpy toggle `data[xs, ys, z] = np.invert(data[xs, ys, z])`: every
voxel touched by the contour is flipped, all others keep their value. -/
def toggleContour (poly : List (ℚ × ℚ) → Finset (ℕ × ℕ)) (g : Geometry)
    (m : Mask) (c : Contour) : Mask :=
  fun v => if contourCovers poly g c v then !(m v) else m v

/-- The per-region loop of `DicomPatient.label_data`: starting from an all-false
mask, each contour in RTSTRUCT order has its geometric type printed when it is
not `CLOSED_PLANAR`, and is then rasterized and XOR-toggled into the mask
unconditionally.  Returns the final mask and the printed log. -/
def rasterizeRegion (poly : List (ℚ × ℚ) → Finset (ℕ × ℕ)) (g : Geometry)
    (contours : List Contour) : Mask × List String :=
  contours.foldl
    (fun st c =>
      (toggleContour poly g st.1 c,
       if c.geomType ≠ "CLOSED_PLANAR" then st.2 ++ [c.geomType] else st.2))
    (fun _ => false, [])

/-- One row of the region-mapping table (`RegionMap`): the compiled effect of
`re.match(row['before'], region, *args)` is kept abstract as the Boolean
predicate `matchesName` (external regex engine, case flag already folded in);
`after` is the replacement, `excpt`/`only` the patient-ID lists, and
`priority` is `some p` exactly when the row carries a non-NaN priority. -/
structure RegionRule where
  matchesName : String → Bool
  after : String
  excpt : List String
  only : List String
  priority : Option ℚ

/-- The skip test of `RegionMap.to_internal`: a rule is skipped when
`pat_id in row['except']`, or when `row['only']` is non-empty and
`pat_id not in row['only']`. -/
def ruleSkipped (r : RegionRule) (patId : Option String) : Bool :=
  (match patId with
   | some p => r.excpt.contains p
   | none => false) ||
  (!r.only.isEmpty &&
   (match patId with
    | some p => !r.only.contains p
    | none => true))

/-- `row['priority'] > priority` against the running priority, which starts at
`-np.inf` (modelled as `none`). -/
def priTakes (cur : Option ℚ) (p : ℚ) : Bool :=
  match cur with
  | none => true
  | some q => decide (q < p)

/-- One iteration of the `to_internal` loop, on the running
(match, priority) state. -/
def toInternalStep (region : String) (patId : Option String)
    (st : Option String × Option ℚ) (r : RegionRule) : Option String × Option ℚ :=
  if ruleSkipped r patId then st
  else if r.matchesName region then
    match r.priority with
    | some p => if priTakes st.2 p then (some r.after, some p) else st
    | none => (some r.after, st.2)
  else st

/-- `RegionMap.to_internal`: iterate the rows in table order, then return the
final match (the unchanged region name when no rule matched) and the final
priority (`none` standing for the code's `-np.inf` sentinel). -/
def toInternal (rules : List RegionRule) (region : String) (patId : Option String) :
    String × Option ℚ :=
  let st := rules.foldl (toInternalStep region patId) (none, none)
  (st.1.getD region, st.2)

/-- `True` exactly on `Except.error` (the `ValueError` branch that
`RTSTRUCTSeries.region_data` catches). -/
def isErr {ε α : Type} : Except ε α → Bool
  | Except.error _ => true
  | Except.ok _ => false

/-- Python dict assignment `region_dict[key] = data`: replace the value when
the key is present, append otherwise. -/
def dictInsert {α : Type} (d : List (String × α)) (k : String) (v : α) :
    List (String × α) :=
  if d.any (fun p => p.1 == k) then
    d.map (fun p => if p.1 == k then (k, v) else p)
  else d ++ [(k, v)]

/-- The per-region loop of `RTSTRUCTSeries.region_data`: for each
(internal, unmapped) name pair, `RTSTRUCTConverter.get_roi_data` — kept
abstract as the fallible parameter `get` (its module is outside this tree) —
either yields a mask, stored in the dict under the internal name, or raises,
in which case the error is logged and the region skipped. -/
def regionDataCore {α : Type} (get : String → Except String α)
    (names : List (String × String)) :
    List (String × α) × List (String × String) :=
  names.foldl
    (fun st n =>
      match get n.2 with
      | Except.error e => (st.1, st.2 ++ [(n.2, e)])
      | Except.ok d => (dictInsert st.1 n.1 d, st.2))
    ([], [])

/-- `RTSTRUCTSeries.region_data`: run the per-region loop, then return
`OrderedDict((n, region_dict[n]) for n in sorted(region_dict.keys()))`
together with the error log. -/
def regionData {α : Type} (get : String → Except String α)
    (names : List (String × String)) :
    List (String × α) × List (String × String) :=
  ((List.insertionSort (· ≤ ·) ((regionDataCore get names).1.map Prod.fst)).filterMap
      (fun k => (List.lookup k (regionDataCore get names).1).map (fun v => (k, v))),
   (regionDataCore get names).2)

/-- A contour with the same vertex data but geometric type `CLOSED_PLANAR`. -/
def setClosed (c : Contour) : Contour := ⟨"CLOSED_PLANAR", c.v0, c.vrest⟩

/-- Geometry with zero offsets and unit spacings. -/
def unitGeometry : Geometry := ⟨0, 0, 0, 1, 1, 1⟩

/-- A contour whose geometric type is not `CLOSED_PLANAR`. -/
def openContour : Contour := ⟨"OPEN_PLANAR", (0, 0, 0), []⟩

/-- A contour whose first vertex sits at z = 1.9 (offset 0, spacing 1). -/
def lateContour : Contour := ⟨"CLOSED_PLANAR", (0, 0, 19/10), []⟩

/-- A non-planar contour: its two vertices have z-values 0 and 5. -/
def nonPlanarContour : Contour := ⟨"CLOSED_PLANAR", (0, 0, 0), [(0, 1, 5)]⟩

/-- A CT slice at the given z position (origin x/y, unit in-plane spacing,
identity rescale, zero pixels). -/
def sliceAtZ (z : ℚ) : CTSlice := ⟨0, 0, z, 1, 1, fun _ _ => 0, 1, 0⟩

/-- Four CT slices whose sorted z positions are 0, 2, 3, 4: the first gap (2)
is not the minimum gap (1). -/
def gapSlices : List CTSlice := [sliceAtZ 0, sliceAtZ 2, sliceAtZ 3, sliceAtZ 4]

/-- A slice at physical position (1.5, -2.5, 4.7). -/
def slFrac : CTSlice := ⟨3/2, -5/2, 47/10, 1, 1, fun _ _ => 0, 1, 0⟩

/-- A slice at physical position (1.5, -2.5, 7.7). -/
def slTop : CTSlice := ⟨3/2, -5/2, 77/10, 1, 1, fun _ _ => 0, 1, 0⟩

/-- A rule matching every name, mapping to itself, with `except = [P1]`. -/
def exceptRule : RegionRule := ⟨fun _ => true, "Parotid_L", ["P1"], [], none⟩

/-- A rule matching every name, replacement "A", priority 2. -/
def rulePriA : RegionRule := ⟨fun _ => true, "A", [], [], some 2⟩

/-- A rule matching every name, replacement "B", no priority. -/
def ruleNoPriB : RegionRule := ⟨fun _ => true, "B", [], [], none⟩

/-- A rule matching every name, replacement "C", priority 1. -/
def rulePriC : RegionRule := ⟨fun _ => true, "C", [], [], some 1⟩

/-- A rule matching every name, replacement "A", no priority. -/
def ruleNoPriA : RegionRule := ⟨fun _ => true, "A", [], [], none⟩

/-- A stub `get_roi_data`: raises (a `ValueError`) exactly on the region file
named "bad", succeeds on every other region. -/
def getStub : String → Except String Bool :=
  fun n => if n == "bad" then Except.error "Error extracting ROI data" else Except.ok true

/-- Five (internal, unmapped) region-name pairs, of which exactly one
("B", backed by "bad") has a malformed contour under `getStub`. -/
def fiveNames : List (String × String) :=
  [("A", "a"), ("B", "bad"), ("C", "c"), ("D", "d"), ("E", "e")]

lemma toggleContour_eq_xor (poly : List (ℚ × ℚ) → Finset (ℕ × ℕ)) (g : Geometry)
    (m : Mask) (c : Contour) (v : ℕ × ℕ × ℤ) :
    toggleContour poly g m c v = xor (m v) (contourCovers poly g c v) := by
  unfold toggleContour
  cases h : contourCovers poly g c v <;> simp [h]

lemma rasterize_fold_mask (poly : List (ℚ × ℚ) → Finset (ℕ × ℕ)) (g : Geometry)
    (cs : List Contour) (m : Mask) (log : List String) (v : ℕ × ℕ × ℤ) :
    ((cs.foldl
        (fun st c =>
          (toggleContour poly g st.1 c,
           if c.geomType ≠ "CLOSED_PLANAR" then st.2 ++ [c.geomType] else st.2))
        (m, log)).1) v
      = xor (m v) (decide (Odd (cs.countP (fun c => contourCovers poly g c v)))) := by
  induction cs generalizing m log with
  | nil => simp
  | cons c cs ih =>
    simp only [List.foldl_cons, List.countP_cons]
    rw [ih, toggleContour_eq_xor]
    cases h : contourCovers poly g c v with
    | false =>
      simp [h]
    | true =>
      simp only [h, if_true]
      rw [Bool.xor_assoc]
      have hodd : (decide (Odd (List.countP (fun c => contourCovers poly g c v) cs + 1)) : Bool)
          = !(decide (Odd (List.countP (fun c => contourCovers poly g c v) cs))) := by
        simp only [Nat.odd_add_one, decide_not]
      rw [hodd, Bool.true_xor]

/-- C1: for every sequence of contours rasterized for one region, each
contour's pixel set is XOR-toggled into the mask at its z-plane, so a voxel of
the final mask is true iff it is covered by an odd number of contours; in
particular, for every pair of identical duplicate contours on the same slice
the resulting mask is entirely false, so its sum over any finite voxel shape
is 0. -/
theorem label_data_xor_composition :
    ∀ (poly : List (ℚ × ℚ) → Finset (ℕ × ℕ)) (g : Geometry)
      (cs : List Contour) (v : ℕ × ℕ × ℤ),
      ((rasterizeRegion poly g cs).1 v = true ↔
        Odd (cs.countP (fun c => contourCovers poly g c v))) ∧
      (∀ c : Contour, (rasterizeRegion poly g [c, c]).1 v = false) ∧
      (∀ (c : Contour) (shape : Finset (ℕ × ℕ × ℤ)),
        (shape.sum fun w => if (rasterizeRegion poly g [c, c]).1 w then (1 : ℕ) else 0)
          = 0) := by
  have hmask : ∀ (poly : List (ℚ × ℚ) → Finset (ℕ × ℕ)) (g : Geometry)
      (cs : List Contour) (v : ℕ × ℕ × ℤ),
      (rasterizeRegion poly g cs).1 v
        = decide (Odd (cs.countP (fun c => contourCovers poly g c v))) := by
    intro poly g cs v
    unfold rasterizeRegion
    rw [rasterize_fold_mask]
    simp
  have hdup : ∀ (poly : List (ℚ × ℚ) → Finset (ℕ × ℕ)) (g : Geometry)
      (c : Contour) (v : ℕ × ℕ × ℤ),
      (rasterizeRegion poly g [c, c]).1 v = false := by
    intro poly g c v
    rw [hmask]
    cases h : contourCovers poly g c v <;>
      simp [List.countP_cons, h, Nat.odd_iff]
  intro poly g cs v
  refine ⟨?_, fun c => hdup poly g c v, fun c shape => ?_⟩
  · rw [hmask]
    exact decide_eq_true_iff
  · refine Finset.sum_eq_zero fun w _ => ?_
    rw [hdup]
    rfl
/-- A constant polygon-fill stub used for concrete runs: every contour
rasterizes to the single pixel (0, 0). -/
def constPoly : List (ℚ × ℚ) → Finset (ℕ × ℕ) := fun _ => {(0, 0)}

lemma rasterize_fold_geomType_irrel (poly : List (ℚ × ℚ) → Finset (ℕ × ℕ))
    (g : Geometry) (cs : List Contour) (m : Mask) (log log' : List String) :
    ((cs.foldl
        (fun st c =>
          (toggleContour poly g st.1 c,
           if c.geomType ≠ "CLOSED_PLANAR" then st.2 ++ [c.geomType] else st.2))
        (m, log)).1)
      = (((cs.map setClosed).foldl
          (fun st c =>
            (toggleContour poly g st.1 c,
             if c.geomType ≠ "CLOSED_PLANAR" then st.2 ++ [c.geomType] else st.2))
          (m, log')).1) := by
  induction cs generalizing m log log' with
  | nil => rfl
  | cons c cs ih =>
    simp only [List.map_cons, List.foldl_cons]
    have htog : toggleContour poly g m (setClosed c) = toggleContour poly g m c := rfl
    rw [htog]
    exact ih (toggleContour poly g m c) _ _

lemma rasterize_fold_log (poly : List (ℚ × ℚ) → Finset (ℕ × ℕ)) (g : Geometry)
    (cs : List Contour) (m : Mask) (log : List String) :
    ((cs.foldl
        (fun st c =>
          (toggleContour poly g st.1 c,
           if c.geomType ≠ "CLOSED_PLANAR" then st.2 ++ [c.geomType] else st.2))
        (m, log)).2)
      = log ++ (cs.filter fun c => c.geomType != "CLOSED_PLANAR").map Contour.geomType := by
  induction cs generalizing m log with
  | nil => simp
  | cons c cs ih =>
    simp only [List.foldl_cons]
    rw [ih]
    by_cases h : c.geomType = "CLOSED_PLANAR"
    · simp [h]
    · simp [h, List.filter_cons, bne_iff_ne]

/-- C8 counterexample: a contour of geometric type `OPEN_PLANAR` is logged as
unhandled, but its pixels ARE rasterized into the region mask — refuting the
claim that only `CLOSED_PLANAR` contours contribute mask voxels. -/
theorem label_data_open_contour_rasterized :
    openContour.geomType ≠ "CLOSED_PLANAR" ∧
    (rasterizeRegion constPoly unitGeometry [openContour]).1 (0, 0, 0) = true ∧
    (rasterizeRegion constPoly unitGeometry [openContour]).2 = ["OPEN_PLANAR"] := by
  refine ⟨by decide, ?_, ?_⟩
  · norm_num [rasterizeRegion, toggleContour, contourCovers, contourZIdx, contourPixels,
      pyTrunc, constPoly, unitGeometry, openContour]
  · norm_num [rasterizeRegion, unitGeometry, openContour]
    decide

/-- C8 amended: for every contour whose geometric-type tag is not
`CLOSED_PLANAR`, the rasterizer logs the tag as unhandled, but still
rasterizes the contour into the region mask exactly as it would a
`CLOSED_PLANAR` contour: the final mask is unchanged if every tag is replaced
by `CLOSED_PLANAR`, and the log lists precisely the non-`CLOSED_PLANAR`
tags in order. -/
theorem label_data_unhandled_geom_types :
    ∀ (poly : List (ℚ × ℚ) → Finset (ℕ × ℕ)) (g : Geometry) (cs : List Contour),
      (rasterizeRegion poly g cs).1 = (rasterizeRegion poly g (cs.map setClosed)).1 ∧
      (rasterizeRegion poly g cs).2
        = (cs.filter fun c => c.geomType != "CLOSED_PLANAR").map Contour.geomType := by
  intro poly g cs
  constructor
  · unfold rasterizeRegion
    exact rasterize_fold_geomType_irrel poly g cs _ [] []
  · unfold rasterizeRegion
    rw [rasterize_fold_log]
    simp

/-- C4 counterexample: for a contour whose first vertex has z = 1.9 with
offset 0 and spacing 1, `label_data` computes z-plane index
`int(1.9) = 1`, not `round(1.9) = 2`; and a non-planar contour (vertex
z-values 0 and 5) is rasterized without any error, its z-plane taken from the
first vertex alone — no `NonPlanarContourError` exists in the code. -/
theorem label_data_zidx_truncates :
    contourZIdx unitGeometry lateContour = 1 ∧
    roundHalfEven ((19/10 - unitGeometry.offZ) / unitGeometry.spZ) = 2 ∧
    (1 : ℤ) ≠ 2 ∧
    (rasterizeRegion constPoly unitGeometry [nonPlanarContour]).1 (0, 0, 0) = true := by
  refine ⟨?_, ?_, by decide, ?_⟩
  · norm_num [contourZIdx, unitGeometry, lateContour, pyTrunc]
  · norm_num [unitGeometry, roundHalfEven]
  · norm_num [rasterizeRegion, toggleContour, contourCovers, contourZIdx, contourPixels,
      pyTrunc, constPoly, unitGeometry, nonPlanarContour]

/-- C4 amended: for every contour, `label_data` computes the z-plane index by
truncating `(z - offset.z) / spacing.z` toward zero (Python `int`), where z is
the FIRST vertex's z-coordinate; it performs no planarity check: the z-index
is independent of the remaining vertices, and every contour — planar or not —
is rasterized at that plane without error (mask voxels outside that z-plane
are untouched). -/
theorem label_data_zidx_first_vertex :
    ∀ (g : Geometry) (c : Contour),
      contourZIdx g c = pyTrunc ((c.v0.2.2 - g.offZ) / g.spZ) ∧
      (∀ rest : List (ℚ × ℚ × ℚ),
        contourZIdx g ⟨c.geomType, c.v0, rest⟩ = contourZIdx g c) ∧
      (∀ (poly : List (ℚ × ℚ) → Finset (ℕ × ℕ)) (m : Mask) (v : ℕ × ℕ × ℤ),
        v.2.2 ≠ contourZIdx g c → toggleContour poly g m c v = m v) := by
  intro g c
  refine ⟨rfl, fun rest => rfl, fun poly m v hz => ?_⟩
  unfold toggleContour contourCovers
  simp [hz]

/-- Witness for C4 amended: at the concrete contour with first-vertex z = 1.9
(z-plane 1), a voxel on plane z = 5 is untouched by the toggle. -/
theorem label_data_zidx_first_vertex_witness :
    toggleContour constPoly unitGeometry (fun _ => false) lateContour (0, 0, 5)
      = (fun _ : ℕ × ℕ × ℤ => false) (0, 0, 5) :=
  (label_data_zidx_first_vertex unitGeometry lateContour).2.2 constPoly
    (fun _ => false) (0, 0, 5)
    (by norm_num [contourZIdx, unitGeometry, lateContour, pyTrunc])

lemma min?_spec {l : List ℚ} {q : ℚ} (h : l.min? = some q) : q ∈ l ∧ ∀ d ∈ l, q ≤ d := by
  haveI : Std.Antisymm (fun x1 x2 : ℚ => x1 ≤ x2) :=
    ⟨fun hab hba => le_antisymm hab hba⟩
  rw [List.min?_eq_some_iff (fun a => le_refl a) (fun a b => min_choice a b)
    (fun a b c => le_min_iff)] at h
  exact h

lemma min?_exists {l : List ℚ} (h : l ≠ []) : ∃ q, l.min? = some q := by
  cases l with
  | nil => simp at h
  | cons a l => exact ⟨_, List.min?_cons⟩

lemma roundedDiffs_length (zs : List ℚ) : (roundedDiffs zs).length = zs.length - 1 := by
  unfold roundedDiffs consecDiffs sortQ
  simp [List.length_zipWith]

/-- C2 counterexample: for CT slices at sorted z positions 0, 2, 3, 4, the
z-spacing returned by `CTSeries.spacing` is the first sorted gap, 2, not the
minimum of the rounded consecutive gaps, 1 (which is what
`DicomPatient.ct_summary` computes) — so the claim is false of
`CTSeries.spacing`, one of its two cited implementations. -/
theorem ct_series_spacing_not_min :
    ctSeriesSpacingZ gapSlices = some 2 ∧
    ctSummarySpacingZ [0, 2, 3, 4] = some 1 ∧
    (2 : ℚ) ≠ 1 := by
  refine ⟨?_, ?_, by norm_num⟩
  · norm_num [ctSeriesSpacingZ, getCts, gapSlices, sliceAtZ,
      List.insertionSort, List.orderedInsert]
  · norm_num [ctSummarySpacingZ, consecDiffs, sortQ, List.insertionSort, List.orderedInsert,
      round2, roundHalfEven, List.min?]

/-- C2 amended: `DicomPatient.ct_summary` computes the z-spacing as the
minimum of the pairwise differences between consecutive sorted slice
z-positions, each rounded to 2 decimals (for z positions [0, 1, 3, 4] the
spacing is 1, not the mean gap 4/3); `CTSeries.spacing` instead returns the
unrounded gap between the first two sorted slices, which can differ. -/
theorem ct_summary_spacing_is_min_gap (zs : List ℚ) (h2 : 2 ≤ zs.length) :
    (∃ q, ctSummarySpacingZ zs = some q ∧ q ∈ roundedDiffs zs ∧
      ∀ d ∈ roundedDiffs zs, q ≤ d) ∧
    ctSummarySpacingZ [0, 1, 3, 4] = some 1 := by
  constructor
  · have hne : roundedDiffs zs ≠ [] := by
      have hl := roundedDiffs_length zs
      intro hnil
      rw [hnil] at hl
      simp at hl
      omega
    obtain ⟨q, hq⟩ := min?_exists hne
    have hspec := min?_spec hq
    exact ⟨q, hq, hspec.1, hspec.2⟩
  · norm_num [ctSummarySpacingZ, consecDiffs, sortQ, List.insertionSort, List.orderedInsert,
      round2, roundHalfEven, List.min?]

/-- Witness for C2 amended: instantiated at z positions [0, 1, 3, 4]
(4 slices), where the minimum rounded gap, 1, is indeed what
`ct_summary` returns. -/
theorem ct_summary_spacing_is_min_gap_witness :
    ∃ q, ctSummarySpacingZ [0, 1, 3, 4] = some q ∧ q ∈ roundedDiffs [0, 1, 3, 4] ∧
      ∀ d ∈ roundedDiffs [0, 1, 3, 4], q ≤ d :=
  (ct_summary_spacing_is_min_gap [0, 1, 3, 4] (by norm_num)).1

lemma max?_spec {l : List ℚ} {q : ℚ} (h : l.max? = some q) : q ∈ l ∧ ∀ d ∈ l, d ≤ q := by
  haveI : Std.Antisymm (fun x1 x2 : ℚ => x1 ≤ x2) :=
    ⟨fun hab hba => le_antisymm hab hba⟩
  rw [List.max?_eq_some_iff (fun a => le_refl a) (fun a b => max_choice a b)
    (fun a b c => max_le_iff)] at h
  exact h

lemma max?_exists {l : List ℚ} (h : l ≠ []) : ∃ q, l.max? = some q := by
  cases l with
  | nil => simp at h
  | cons a l => exact ⟨_, List.max?_cons⟩

/-- C3: for every set of at least 2 CT slices, `ct_summary` reports
`size.z = round(fov_z / spacing_z) + 1` where `fov_z` is the difference between
the extreme slice z-positions, reports `num-missing = size.z - len(slices)` as
a field of the returned table (surfaced to the caller, not hidden), and on the
10-slices-minus-index-5 example (z positions 0..9 without 5) reports
`size.z = 10` and missing count 1. -/
theorem ct_summary_missing_slices (zs : List ℚ) (h2 : 2 ≤ zs.length) :
    (∃ s, ctSummary zs = some s ∧
      s.sizeZ = roundHalfEven (s.fovZ / s.spacingZ) + 1 ∧
      s.numMissing = s.sizeZ - zs.length ∧
      ∃ zmax ∈ zs, ∃ zmin ∈ zs, s.fovZ = zmax - zmin ∧
        ∀ z ∈ zs, zmin ≤ z ∧ z ≤ zmax) ∧
    (∃ s, ctSummary [0, 1, 2, 3, 4, 6, 7, 8, 9] = some s ∧
      s.sizeZ = 10 ∧ s.numMissing = 1) := by
  constructor
  · have hzne : zs ≠ [] := by
      intro hnil
      rw [hnil] at h2
      simp at h2
    have hne : roundedDiffs zs ≠ [] := by
      have hl := roundedDiffs_length zs
      intro hnil
      rw [hnil] at hl
      simp at hl
      omega
    obtain ⟨sp, hsp⟩ := min?_exists hne
    obtain ⟨zmax, hzmax⟩ := max?_exists hzne
    obtain ⟨zmin, hzmin⟩ := min?_exists hzne
    have hsp' : ctSummarySpacingZ zs = some sp := hsp
    have hmaxs := max?_spec hzmax
    have hmins := min?_spec hzmin
    refine ⟨⟨sp, zmax - zmin, roundHalfEven ((zmax - zmin) / sp) + 1,
        roundHalfEven ((zmax - zmin) / sp) + 1 - zs.length⟩, ?_, rfl, rfl,
      zmax, hmaxs.1, zmin, hmins.1, rfl,
      fun z hz => ⟨hmins.2 z hz, hmaxs.2 z hz⟩⟩
    unfold ctSummary
    rw [hsp', hzmax, hzmin]
  · refine ⟨⟨1, 9, 10, 1⟩, ?_, rfl, rfl⟩
    have hsp : ctSummarySpacingZ [0, 1, 2, 3, 4, 6, 7, 8, 9] = some 1 := by
      norm_num [ctSummarySpacingZ, consecDiffs, sortQ, List.insertionSort,
        List.orderedInsert, round2, roundHalfEven, List.min?]
    unfold ctSummary
    rw [hsp]
    norm_num [List.max?, List.min?, roundHalfEven]

/-- Witness for C3: the 10-slices-minus-index-5 example has 9 slices, and the
summary reports size.z = 10 with 1 missing slice. -/
theorem ct_summary_missing_slices_witness :
    ∃ s, ctSummary [0, 1, 2, 3, 4, 6, 7, 8, 9] = some s ∧
      s.sizeZ = 10 ∧ s.numMissing = 1 :=
  (ct_summary_missing_slices [0, 1, 2, 3, 4, 6, 7, 8, 9] (by norm_num)).2

lemma ctData_fold_sound (idx : CTSlice → ℤ) (l : List CTSlice)
    (vol0 : ℤ → Option CTSlice) (z : ℤ) (c : CTSlice)
    (h : (l.foldl (fun vol c z => if z = idx c then some c else vol z) vol0) z = some c) :
    vol0 z = some c ∨ (c ∈ l ∧ z = idx c) := by
  induction l generalizing vol0 with
  | nil => exact Or.inl h
  | cons c0 l ih =>
    simp only [List.foldl_cons] at h
    rcases ih _ h with h0 | h1
    · by_cases hz : z = idx c0
      · rw [if_pos hz] at h0
        have hc : c0 = c := Option.some.inj h0
        rw [← hc]
        exact Or.inr ⟨List.mem_cons_self c0 l, hz⟩
      · rw [if_neg hz] at h0
        exact Or.inl h0
    · exact Or.inr ⟨List.mem_cons_of_mem c0 h1.1, h1.2⟩

/-- C10: for every CT series with at least 2 slices, `CTSeries.offset` returns
each coordinate of the first sorted slice's physical position truncated to an
integer (fractional millimetres discarded), and this truncated offset is the
one used by `CTSeries.data` when computing slice z-indices: every slice placed
in the volume sits at index `round((z - int(z0)) / spacing_z)`. -/
theorem ct_series_offset_truncated (slices : List CTSlice) (h2 : 2 ≤ slices.length) :
    ∃ c0 rest, getCts slices = c0 :: rest ∧ c0 ∈ slices ∧
      (∀ c ∈ slices, c0.posZ ≤ c.posZ) ∧
      ctSeriesOffset slices = some (pyTrunc c0.posX, pyTrunc c0.posY, pyTrunc c0.posZ) ∧
      (∀ sp, ctSeriesSpacingZ slices = some sp →
        ∀ c, ctSeriesZIdx slices c
          = some (roundHalfEven ((c.posZ - (pyTrunc c0.posZ : ℚ)) / sp))) ∧
      (∀ vol, ctSeriesData slices = some vol →
        ∀ z c, vol z = some c → c ∈ slices ∧ ctSeriesZIdx slices c = some z) := by
  haveI htot : IsTotal CTSlice (fun a b => a.posZ ≤ b.posZ) :=
    ⟨fun a b => le_total a.posZ b.posZ⟩
  haveI htr : IsTrans CTSlice (fun a b => a.posZ ≤ b.posZ) :=
    ⟨fun _ _ _ hab hbc => le_trans hab hbc⟩
  obtain ⟨c0, rest, hgc⟩ : ∃ c0 rest, getCts slices = c0 :: rest := by
    cases hg : getCts slices with
    | nil =>
      exfalso
      have := List.length_insertionSort (fun a b : CTSlice => a.posZ ≤ b.posZ) slices
      rw [show List.insertionSort (fun a b : CTSlice => a.posZ ≤ b.posZ) slices
            = getCts slices from rfl, hg] at this
      simp at this
      omega
    | cons c0 rest => exact ⟨c0, rest, rfl⟩
  have hmemg : ∀ c, c ∈ getCts slices ↔ c ∈ slices := by
    intro c
    exact List.mem_insertionSort (fun a b : CTSlice => a.posZ ≤ b.posZ)
  have hc0mem : c0 ∈ slices := by
    rw [← hmemg]
    rw [hgc]
    exact List.mem_cons_self c0 rest
  have hsorted : List.Sorted (fun a b : CTSlice => a.posZ ≤ b.posZ) (getCts slices) :=
    List.sorted_insertionSort _ slices
  have hmin : ∀ c ∈ slices, c0.posZ ≤ c.posZ := by
    intro c hc
    rw [← hmemg, hgc] at hc
    rcases List.mem_cons.mp hc with hce | hcr
    · rw [hce]
    · rw [hgc] at hsorted
      exact (List.sorted_cons.mp hsorted).1 c hcr
  have hoff : ctSeriesOffset slices
      = some (pyTrunc c0.posX, pyTrunc c0.posY, pyTrunc c0.posZ) := by
    unfold ctSeriesOffset
    rw [hgc]
    rfl
  refine ⟨c0, rest, hgc, hc0mem, hmin, hoff, ?_, ?_⟩
  · intro sp hsp c
    unfold ctSeriesZIdx
    rw [hoff, hsp]
  · intro vol hvol z c hz
    unfold ctSeriesData at hvol
    rw [hoff] at hvol
    cases hsp : ctSeriesSpacingZ slices with
    | none =>
      rw [hsp] at hvol
      exact absurd hvol (by simp)
    | some sp =>
      rw [hsp] at hvol
      have hvol' := hvol
      simp only [Option.some_inj] at hvol'
      rw [← hvol'] at hz
      rcases ctData_fold_sound _ _ _ _ _ hz with h0 | h1
      · exact absurd h0 (by simp)
      · refine ⟨(hmemg c).mp h1.1, ?_⟩
        unfold ctSeriesZIdx
        rw [hoff, hsp, h1.2]

/-- Witness for C10: for two slices at z = 7.7 and z = 4.7 (given out of
order), the offset is the truncation (1, -2, 4) of the lower slice's
position (1.5, -2.5, 4.7). -/
theorem ct_series_offset_truncated_witness :
    ctSeriesOffset [slTop, slFrac] = some (1, -2, 4) := by
  obtain ⟨c0, rest, hgc, _, _, hoff, _, _⟩ :=
    ct_series_offset_truncated [slTop, slFrac] (by norm_num)
  have hsort : getCts [slTop, slFrac] = [slFrac, slTop] := by
    norm_num [getCts, List.insertionSort, List.orderedInsert, slTop, slFrac]
  rw [hsort] at hgc
  obtain ⟨h1, -⟩ := List.cons.inj hgc
  rw [← h1] at hoff
  rw [hoff]
  norm_num [slFrac, pyTrunc]

lemma toInternal_fold_skip (region : String) (patId : Option String)
    (rules : List RegionRule) (st : Option String × Option ℚ) :
    rules.foldl (toInternalStep region patId) st
      = (rules.filter fun r => !ruleSkipped r patId).foldl
          (toInternalStep region patId) st := by
  induction rules generalizing st with
  | nil => rfl
  | cons r rules ih =>
    by_cases h : ruleSkipped r patId = true
    · have hstep : toInternalStep region patId st r = st := by
        unfold toInternalStep
        rw [if_pos h]
      simp only [List.foldl_cons, List.filter_cons, h, Bool.not_true, hstep]
      exact ih st
    · have h' : ruleSkipped r patId = false := by
        cases hb : ruleSkipped r patId
        · rfl
        · exact absurd hb h
      simp only [List.foldl_cons, List.filter_cons, h', Bool.not_false]
      exact ih _

lemma toInternal_fold_nomatch (region : String) (patId : Option String)
    (rules : List RegionRule)
    (h : ∀ r ∈ rules, ruleSkipped r patId = true ∨ r.matchesName region = false)
    (st : Option String × Option ℚ) :
    rules.foldl (toInternalStep region patId) st = st := by
  induction rules generalizing st with
  | nil => rfl
  | cons r rules ih =>
    have hstep : toInternalStep region patId st r = st := by
      unfold toInternalStep
      rcases h r (List.mem_cons_self r rules) with hs | hm
      · rw [if_pos hs]
      · by_cases hs : ruleSkipped r patId = true
        · rw [if_pos hs]
        · rw [if_neg hs, if_neg (by rw [hm]; exact Bool.false_ne_true)]
    simp only [List.foldl_cons, hstep]
    exact ih (fun r hr => h r (List.mem_cons_of_mem _ hr)) st

/-- C6: a rule whose `except` set contains the patient, or whose non-empty
`only` set does not contain the patient, is skipped entirely (removing all
such rules leaves `to_internal` unchanged); and when no non-skipped rule
matches the name, the name is returned unchanged with no priority (the code's
`-np.inf` sentinel, modelled as `none`). -/
theorem to_internal_skip_and_passthrough :
    ∀ (rules : List RegionRule) (region : String) (patId : Option String),
      toInternal rules region patId
        = toInternal (rules.filter fun r => !ruleSkipped r patId) region patId ∧
      ((∀ r ∈ rules, ruleSkipped r patId = true ∨ r.matchesName region = false) →
        toInternal rules region patId = (region, none)) := by
  intro rules region patId
  constructor
  · unfold toInternal
    rw [toInternal_fold_skip]
  · intro h
    unfold toInternal
    rw [toInternal_fold_nomatch region patId rules h]
    rfl

/-- Witness for C6: for patient P1 and the single otherwise-matching rule with
`except = [P1]`, the name passes through unchanged with priority none. -/
theorem to_internal_skip_and_passthrough_witness :
    toInternal [exceptRule] "left parotid" (some "P1") = ("left parotid", none) :=
  (to_internal_skip_and_passthrough [exceptRule] "left parotid" (some "P1")).2
    (by decide)

/-- C5 counterexample: with a matching priority-2 rule followed by a matching
unprioritized rule with a conflicting output, `to_internal` returns the
unprioritized rule's output "B", not the priority-2 output "A" — the
highest-priority matching rule does NOT always win when some matching rule
lacks a priority. -/
theorem to_internal_mixed_priority_cex :
    rulePriA.priority = some 2 ∧ ruleNoPriB.priority = none ∧
    rulePriA.matchesName "x" = true ∧ ruleNoPriB.matchesName "x" = true ∧
    toInternal [rulePriA, ruleNoPriB] "x" none = ("B", some 2) ∧
    "B" ≠ "A" := by
  refine ⟨rfl, rfl, rfl, rfl, ?_, by decide⟩
  decide


lemma toInternalStep_skip (region : String) (patId : Option String)
    (st : Option String × Option ℚ) (r : RegionRule)
    (h : ruleSkipped r patId = true) :
    toInternalStep region patId st r = st := by
  unfold toInternalStep
  rw [if_pos h]

lemma toInternalStep_nomatch (region : String) (patId : Option String)
    (st : Option String × Option ℚ) (r : RegionRule)
    (hs : ruleSkipped r patId = false) (hm : r.matchesName region = false) :
    toInternalStep region patId st r = st := by
  unfold toInternalStep
  rw [if_neg (by rw [hs]; exact Bool.false_ne_true),
    if_neg (by rw [hm]; exact Bool.false_ne_true)]

lemma toInternalStep_pri (region : String) (patId : Option String)
    (st : Option String × Option ℚ) (r : RegionRule) (p : ℚ)
    (hs : ruleSkipped r patId = false) (hm : r.matchesName region = true)
    (hp : r.priority = some p) :
    toInternalStep region patId st r
      = if priTakes st.2 p = true then (some r.after, some p) else st := by
  unfold toInternalStep
  rw [if_neg (by rw [hs]; exact Bool.false_ne_true), if_pos hm, hp]

lemma toInternalStep_nopri (region : String) (patId : Option String)
    (st : Option String × Option ℚ) (r : RegionRule)
    (hs : ruleSkipped r patId = false) (hm : r.matchesName region = true)
    (hp : r.priority = none) :
    toInternalStep region patId st r = (some r.after, st.2) := by
  unfold toInternalStep
  rw [if_neg (by rw [hs]; exact Bool.false_ne_true), if_pos hm, hp]

lemma priTakes_of_lt (cur : Option ℚ) (p : ℚ)
    (h : cur = none ∨ ∃ q, cur = some q ∧ q < p) : priTakes cur p = true := by
  rcases h with hn | ⟨q, hq, hlt⟩
  · rw [hn]
    rfl
  · rw [hq]
    unfold priTakes
    simp [hlt]

lemma toInternal_fold_preserve (region : String) (patId : Option String)
    (r : RegionRule) (p : ℚ) (l : List RegionRule) (hrp : r.priority = some p)
    (hdom : ∀ r' ∈ l, ruleSkipped r' patId = false → r'.matchesName region = true →
      r' = r ∨ ∃ p', r'.priority = some p' ∧ p' < p) :
    l.foldl (toInternalStep region patId) (some r.after, some p)
      = (some r.after, some p) := by
  induction l with
  | nil => rfl
  | cons r0 l ih =>
    have hstep : toInternalStep region patId (some r.after, some p) r0
        = (some r.after, some p) := by
      cases hs : ruleSkipped r0 patId with
      | true => exact toInternalStep_skip region patId _ r0 hs
      | false =>
        cases hm : r0.matchesName region with
        | false => exact toInternalStep_nomatch region patId _ r0 hs hm
        | true =>
          rcases hdom r0 (List.mem_cons_self r0 l) hs hm with he | ⟨p', hp', hlt⟩
          · rw [toInternalStep_pri region patId _ r0 p hs hm (by rw [he, hrp])]
            have ht : priTakes (some r.after, some p).2 p = false := by
              unfold priTakes
              simp
            rw [ht]
            simp
          · rw [toInternalStep_pri region patId _ r0 p' hs hm hp']
            have ht : priTakes (some r.after, some p).2 p' = false := by
              unfold priTakes
              simp [not_lt.mpr hlt.le]
            rw [ht]
            simp
    simp only [List.foldl_cons, hstep]
    exact ih (fun r' hr' => hdom r' (List.mem_cons_of_mem _ hr'))

lemma toInternal_fold_reach (region : String) (patId : Option String)
    (r : RegionRule) (p : ℚ) (l : List RegionRule) (hrp : r.priority = some p)
    (hr : r ∈ l) (hrs : ruleSkipped r patId = false) (hrm : r.matchesName region = true)
    (hdom : ∀ r' ∈ l, ruleSkipped r' patId = false → r'.matchesName region = true →
      r' = r ∨ ∃ p', r'.priority = some p' ∧ p' < p)
    (st : Option String × Option ℚ)
    (hst : st.2 = none ∨ ∃ q, st.2 = some q ∧ q < p) :
    l.foldl (toInternalStep region patId) st = (some r.after, some p) := by
  induction l generalizing st with
  | nil => exact absurd hr (List.not_mem_nil r)
  | cons r0 l ih =>
    simp only [List.foldl_cons]
    have hmem : r0 ≠ r → r ∈ l := by
      intro hne
      rcases List.mem_cons.mp hr with he | hl
      · exact absurd he.symm hne
      · exact hl
    cases hs : ruleSkipped r0 patId with
    | true =>
      have hr0 : r0 ≠ r := by
        intro he
        rw [he, hrs] at hs
        exact Bool.false_ne_true hs
      rw [toInternalStep_skip region patId st r0 hs]
      exact ih (hmem hr0) (fun r' h' => hdom r' (List.mem_cons_of_mem _ h')) st hst
    | false =>
      cases hm : r0.matchesName region with
      | false =>
        have hr0 : r0 ≠ r := by
          intro he
          rw [he, hrm] at hm
          exact Bool.false_ne_true hm.symm
        rw [toInternalStep_nomatch region patId st r0 hs hm]
        exact ih (hmem hr0) (fun r' h' => hdom r' (List.mem_cons_of_mem _ h')) st hst
      | true =>
        rcases hdom r0 (List.mem_cons_self r0 l) hs hm with he | ⟨p', hp', hlt⟩
        · rw [toInternalStep_pri region patId st r0 p hs hm (by rw [he, hrp]),
            if_pos (priTakes_of_lt st.2 p hst)]
          have hafter : r0.after = r.after := by rw [he]
          rw [hafter]
          exact toInternal_fold_preserve region patId r p l hrp
            (fun r' h' => hdom r' (List.mem_cons_of_mem _ h'))
        · have hr0 : r0 ≠ r := by
            intro he
            rw [he, hrp] at hp'
            have hpe : p = p' := Option.some.inj hp'
            rw [hpe] at hlt
            exact lt_irrefl p' hlt
          rw [toInternalStep_pri region patId st r0 p' hs hm hp']
          by_cases ht : priTakes st.2 p' = true
          · rw [if_pos ht]
            exact ih (hmem hr0) (fun r' h' => hdom r' (List.mem_cons_of_mem _ h'))
              (some r0.after, some p') (Or.inr ⟨p', rfl, hlt⟩)
          · rw [if_neg ht]
            exact ih (hmem hr0) (fun r' h' => hdom r' (List.mem_cons_of_mem _ h')) st hst

lemma toInternal_fold_unpri_snd (region : String) (patId : Option String)
    (l : List RegionRule)
    (h : ∀ r' ∈ l, ruleSkipped r' patId = false → r'.matchesName region = true →
      r'.priority = none) :
    ∀ st, (l.foldl (toInternalStep region patId) st).2 = st.2 := by
  induction l with
  | nil => intro st; rfl
  | cons r0 l ih =>
    intro st
    simp only [List.foldl_cons]
    have h2 : (toInternalStep region patId st r0).2 = st.2 := by
      cases hs : ruleSkipped r0 patId with
      | true => rw [toInternalStep_skip _ _ _ _ hs]
      | false =>
        cases hm : r0.matchesName region with
        | false => rw [toInternalStep_nomatch _ _ _ _ hs hm]
        | true =>
          rw [toInternalStep_nopri _ _ _ _ hs hm (h r0 (List.mem_cons_self r0 l) hs hm)]
    rw [ih (fun r' h' hs hm => h r' (List.mem_cons_of_mem _ h') hs hm), h2]

/-- C5 amended: when every matching non-skipped rule carries a numeric
priority and one of them strictly dominates all others, `to_internal` returns
that rule's replacement and priority regardless of table order; when no
matching rule carries a priority, the last matching rule in table order wins.
(When prioritized and unprioritized matching rules are mixed, an unprioritized
matching rule later in the table overwrites a higher-priority match, as the
counterexample shows.) -/
theorem to_internal_priority_resolution :
    (∀ (rules : List RegionRule) (region : String) (patId : Option String)
       (r : RegionRule) (p : ℚ),
      r ∈ rules → ruleSkipped r patId = false → r.matchesName region = true →
      r.priority = some p →
      (∀ r' ∈ rules, ruleSkipped r' patId = false → r'.matchesName region = true →
        r' = r ∨ ∃ p', r'.priority = some p' ∧ p' < p) →
      toInternal rules region patId = (r.after, some p)) ∧
    (∀ (l1 l2 : List RegionRule) (r : RegionRule) (region : String)
       (patId : Option String),
      ruleSkipped r patId = false → r.matchesName region = true →
      (∀ r' ∈ l1 ++ r :: l2, ruleSkipped r' patId = false →
        r'.matchesName region = true → r'.priority = none) →
      (∀ r' ∈ l2, ruleSkipped r' patId = false → r'.matchesName region = true → False) →
      toInternal (l1 ++ r :: l2) region patId = (r.after, none)) := by
  constructor
  · intro rules region patId r p hr hrs hrm hrp hdom
    unfold toInternal
    rw [toInternal_fold_reach region patId r p rules hrp hr hrs hrm hdom
      (none, none) (Or.inl rfl)]
    rfl
  · intro l1 l2 r region patId hrs hrm hnone hl2
    unfold toInternal
    rw [List.foldl_append]
    have hst1 : (l1.foldl (toInternalStep region patId) (none, none)).2 = none :=
      toInternal_fold_unpri_snd region patId l1
        (fun r' h' => hnone r' (List.mem_append_left _ h')) (none, none)
    simp only [List.foldl_cons]
    have hrnone : r.priority = none :=
      hnone r (List.mem_append_right _ (List.mem_cons_self r l2)) hrs hrm
    rw [toInternalStep_nopri region patId _ r hrs hrm hrnone, hst1]
    rw [toInternal_fold_nomatch region patId l2 ?hnm (some r.after, none)]
    case hnm =>
      intro r' h'
      cases hs : ruleSkipped r' patId with
      | true => exact Or.inl rfl
      | false =>
        cases hm : r'.matchesName region with
        | false => exact Or.inr rfl
        | true => exact absurd (hl2 r' h' hs hm) not_false
    rfl

/-- Witness for C5 amended: with matching rules of priority 1 then priority 2
and conflicting outputs, the priority-2 output wins; with two matching
unprioritized rules, the later one wins. -/
theorem to_internal_priority_resolution_witness :
    toInternal [rulePriC, rulePriA] "x" none = ("A", some 2) ∧
    toInternal [ruleNoPriA, ruleNoPriB] "x" none = ("B", none) := by
  constructor
  · refine to_internal_priority_resolution.1 [rulePriC, rulePriA] "x" none rulePriA 2
      (List.mem_cons_of_mem _ (List.mem_cons_self _ _)) rfl rfl rfl ?_
    intro r' hr' _ _
    rcases List.mem_cons.mp hr' with h1 | hr'
    · refine Or.inr ⟨1, ?_, by norm_num⟩
      rw [h1]
      rfl
    · rcases List.mem_cons.mp hr' with h2 | hr'
      · exact Or.inl h2
      · exact absurd hr' (List.not_mem_nil r')
  · refine to_internal_priority_resolution.2 [ruleNoPriA] [] ruleNoPriB "x" none
      rfl rfl ?_ ?_
    · intro r' hr' _ _
      rcases List.mem_cons.mp hr' with h1 | hr'
      · rw [h1]
        rfl
      · rcases List.mem_cons.mp hr' with h2 | hr'
        · rw [h2]
          rfl
        · exact absurd hr' (List.not_mem_nil r')
    · intro r' hr'
      exact absurd hr' (List.not_mem_nil r')

lemma lookup_isSome_iff {α : Type} (d : List (String × α)) (k : String) :
    (List.lookup k d).isSome = true ↔ k ∈ d.map Prod.fst := by
  induction d with
  | nil => simp [List.lookup]
  | cons p d ih =>
    obtain ⟨k0, v0⟩ := p
    cases hkp : (k == k0) with
    | true =>
      have hke : k = k0 := beq_iff_eq.mp hkp
      simp [List.lookup, hkp, hke]
    | false =>
      have hne : ¬ k = k0 := by
        intro he
        rw [he] at hkp
        simp at hkp
      simp only [List.lookup, hkp, List.map_cons, List.mem_cons]
      rw [ih]
      constructor
      · exact fun h => Or.inr h
      · rintro (he | h)
        · exact absurd he hne
        · exact h

lemma lookup_mem {α : Type} (d : List (String × α)) (k : String) (v : α)
    (h : List.lookup k d = some v) : (k, v) ∈ d := by
  induction d with
  | nil => simp [List.lookup] at h
  | cons p d ih =>
    obtain ⟨k0, v0⟩ := p
    cases hkp : (k == k0) with
    | true =>
      have hke : k = k0 := beq_iff_eq.mp hkp
      simp [List.lookup, hkp] at h
      rw [hke, h]
      exact List.mem_cons_self _ _
    | false =>
      simp [List.lookup, hkp] at h
      exact List.mem_cons_of_mem _ (ih h)

lemma dictInsert_keys_mem {α : Type} (d : List (String × α)) (k : String) (v : α)
    (k' : String) :
    k' ∈ (dictInsert d k v).map Prod.fst ↔ k' ∈ d.map Prod.fst ∨ k' = k := by
  unfold dictInsert
  by_cases h : d.any (fun p => p.1 == k) = true
  · rw [if_pos h]
    obtain ⟨p0, hp0, hp0k⟩ := List.any_eq_true.mp h
    have hp0e : p0.1 = k := beq_iff_eq.mp hp0k
    simp only [List.map_map, List.mem_map, Function.comp]
    constructor
    · rintro ⟨p, hp, hpe⟩
      by_cases hpk : (p.1 == k) = true
      · rw [if_pos hpk] at hpe
        exact Or.inr hpe.symm
      · rw [if_neg hpk] at hpe
        exact Or.inl ⟨p, hp, hpe⟩
    · rintro (hm | he)
      · obtain ⟨p, hp, hpe⟩ := hm
        by_cases hpk : (p.1 == k) = true
        · refine ⟨p0, hp0, ?_⟩
          rw [if_pos hp0k]
          rw [← hpe, beq_iff_eq.mp hpk]
        · refine ⟨p, hp, ?_⟩
          rw [if_neg hpk]
          exact hpe
      · refine ⟨p0, hp0, ?_⟩
        rw [if_pos hp0k, he]
  · rw [if_neg h]
    simp [List.mem_append]

lemma dictInsert_mem_sound {α : Type} (d : List (String × α)) (k0 : String) (v0 : α)
    (k : String) (v : α) (h : (k, v) ∈ dictInsert d k0 v0) :
    (k, v) ∈ d ∨ (k = k0 ∧ v = v0) := by
  unfold dictInsert at h
  by_cases ha : d.any (fun p => p.1 == k0) = true
  · rw [if_pos ha] at h
    obtain ⟨p, hp, hpe⟩ := List.mem_map.mp h
    by_cases hpk : (p.1 == k0) = true
    · rw [if_pos hpk] at hpe
      have h1 : k0 = k := congrArg Prod.fst hpe
      have h2 : v0 = v := congrArg Prod.snd hpe
      exact Or.inr ⟨h1.symm, h2.symm⟩
    · rw [if_neg hpk] at hpe
      rw [← hpe]
      exact Or.inl hp
  · rw [if_neg ha] at h
    rcases List.mem_append.mp h with hm | hm
    · exact Or.inl hm
    · rcases List.mem_cons.mp hm with he | hnil
      · have h1 : k = k0 := congrArg Prod.fst he
        have h2 : v = v0 := congrArg Prod.snd he
        exact Or.inr ⟨h1, h2⟩
      · exact absurd hnil (List.not_mem_nil _)

lemma regionDataCore_log_length {α : Type} (get : String → Except String α)
    (names : List (String × String)) :
    ∀ (d0 : List (String × α)) (l0 : List (String × String)),
      ((names.foldl
        (fun st n =>
          match get n.2 with
          | Except.error e => (st.1, st.2 ++ [(n.2, e)])
          | Except.ok d => (dictInsert st.1 n.1 d, st.2))
        (d0, l0)).2).length
        = l0.length + names.countP (fun n => isErr (get n.2)) := by
  induction names with
  | nil => intro d0 l0; simp
  | cons n names ih =>
    intro d0 l0
    simp only [List.foldl_cons, List.countP_cons]
    cases hg : get n.2 with
    | error e =>
      rw [ih]
      simp [isErr, hg]
      omega
    | ok d =>
      rw [ih]
      simp [isErr, hg]

lemma regionDataCore_keys_mem {α : Type} (get : String → Except String α)
    (names : List (String × String)) :
    ∀ (d0 : List (String × α)) (l0 : List (String × String)) (k : String),
      (k ∈ ((names.foldl
        (fun st n =>
          match get n.2 with
          | Except.error e => (st.1, st.2 ++ [(n.2, e)])
          | Except.ok d => (dictInsert st.1 n.1 d, st.2))
        (d0, l0)).1).map Prod.fst)
        ↔ (k ∈ d0.map Prod.fst ∨ ∃ n ∈ names, isErr (get n.2) = false ∧ n.1 = k) := by
  induction names with
  | nil => intro d0 l0 k; simp
  | cons n names ih =>
    intro d0 l0 k
    simp only [List.foldl_cons]
    cases hg : get n.2 with
    | error e =>
      rw [ih]
      simp only [List.mem_cons]
      constructor
      · rintro (hd | hm)
        · exact Or.inl hd
        · exact Or.inr (by
            obtain ⟨n', hn', hn'2⟩ := hm
            exact ⟨n', Or.inr hn', hn'2⟩)
      · rintro (hd | ⟨n', hn', hne, hnk⟩)
        · exact Or.inl hd
        · rcases hn' with he | hn'
          · rw [he, hg] at hne
            simp [isErr] at hne
          · exact Or.inr ⟨n', hn', hne, hnk⟩
    | ok d =>
      rw [ih]
      rw [dictInsert_keys_mem]
      simp only [List.mem_cons]
      constructor
      · rintro ((hd | he) | hm)
        · exact Or.inl hd
        · exact Or.inr ⟨n, Or.inl rfl, by simp [isErr, hg], he.symm⟩
        · obtain ⟨n', hn', hn'2⟩ := hm
          exact Or.inr ⟨n', Or.inr hn', hn'2⟩
      · rintro (hd | ⟨n', hn', hne, hnk⟩)
        · exact Or.inl (Or.inl hd)
        · rcases hn' with he | hn'
          · exact Or.inl (Or.inr (he ▸ hnk).symm)
          · exact Or.inr ⟨n', hn', hne, hnk⟩

lemma regionDataCore_mem_sound {α : Type} (get : String → Except String α)
    (names : List (String × String)) :
    ∀ (d0 : List (String × α)) (l0 : List (String × String)) (k : String) (v : α),
      ((k, v) ∈ ((names.foldl
        (fun st n =>
          match get n.2 with
          | Except.error e => (st.1, st.2 ++ [(n.2, e)])
          | Except.ok d => (dictInsert st.1 n.1 d, st.2))
        (d0, l0)).1))
        → ((k, v) ∈ d0 ∨ ∃ n ∈ names, n.1 = k ∧ get n.2 = Except.ok v) := by
  induction names with
  | nil => intro d0 l0 k v h; exact Or.inl h
  | cons n names ih =>
    intro d0 l0 k v h
    simp only [List.foldl_cons] at h
    cases hg : get n.2 with
    | error e =>
      rw [hg] at h
      rcases ih _ _ _ _ h with hd | ⟨n', hn', hnk, hnv⟩
      · exact Or.inl hd
      · exact Or.inr ⟨n', List.mem_cons_of_mem _ hn', hnk, hnv⟩
    | ok d =>
      rw [hg] at h
      rcases ih _ _ _ _ h with hd | ⟨n', hn', hnk, hnv⟩
      · rcases dictInsert_mem_sound _ _ _ _ _ hd with hd0 | ⟨hk, hv⟩
        · exact Or.inl hd0
        · exact Or.inr ⟨n, List.mem_cons_self _ _, hk.symm, by rw [hg, hv]⟩
      · exact Or.inr ⟨n', List.mem_cons_of_mem _ hn', hnk, hnv⟩

lemma filterMap_lookup_keys {α : Type} (d : List (String × α)) (l : List String) :
    (l.filterMap (fun k => (List.lookup k d).map (fun v => (k, v)))).map Prod.fst
      = l.filter (fun k => (List.lookup k d).isSome) := by
  induction l with
  | nil => rfl
  | cons k l ih =>
    cases h : List.lookup k d with
    | none => simp [List.filterMap_cons, List.filter_cons, h, ih]
    | some v => simp [List.filterMap_cons, List.filter_cons, h, ih]

/-- C7: per-region rasterization failures in `region_data` are caught and
logged (one log entry per caught error), only the failed regions are dropped,
and every other requested region's mask is still returned: the log length
equals the number of failing regions, a name appears among the returned keys
iff some successfully-rasterized pair carries it, and every returned mask is
one the rasterizer actually produced.  On the concrete five-region example
with one malformed region the assembly returns four masks and logs exactly
one error. -/
theorem region_data_partial_failure :
    (∀ (α : Type) (get : String → Except String α) (names : List (String × String)),
      ((regionData get names).2).length = names.countP (fun n => isErr (get n.2)) ∧
      (∀ k, k ∈ ((regionData get names).1).map Prod.fst ↔
        ∃ n ∈ names, isErr (get n.2) = false ∧ n.1 = k) ∧
      (∀ k v, (k, v) ∈ (regionData get names).1 →
        ∃ n ∈ names, n.1 = k ∧ get n.2 = Except.ok v)) ∧
    ((regionData getStub fiveNames).1).length = 4 ∧
    ((regionData getStub fiveNames).2).length = 1 := by
  refine ⟨?_, ?_, ?_⟩
  case refine_2 =>
    simp [regionData, regionDataCore, dictInsert, getStub, fiveNames,
      List.insertionSort, List.orderedInsert, List.lookup]
    decide
  case refine_3 =>
    simp [regionData, regionDataCore, dictInsert, getStub, fiveNames]
  intro α get names
  refine ⟨?_, ?_, ?_⟩
  · unfold regionData regionDataCore
    rw [regionDataCore_log_length]
    simp
  · intro k
    unfold regionData
    rw [filterMap_lookup_keys]
    rw [List.mem_filter]
    constructor
    · rintro ⟨hks, hkl⟩
      have hkm := (lookup_isSome_iff _ k).mp hkl
      exact ((regionDataCore_keys_mem get names [] [] k).mp hkm).resolve_left
        (by simp)
    · intro hex
      have hkm : k ∈ ((regionDataCore get names).1).map Prod.fst :=
        (regionDataCore_keys_mem get names [] [] k).mpr (Or.inr hex)
      refine ⟨List.mem_insertionSort _ |>.mpr hkm, (lookup_isSome_iff _ k).mpr hkm⟩
  · intro k v hkv
    unfold regionData at hkv
    obtain ⟨k', hk', hke⟩ := List.mem_filterMap.mp hkv
    cases hl : List.lookup k' (regionDataCore get names).1 with
    | none =>
      rw [hl] at hke
      exact absurd hke (by simp)
    | some v' =>
      rw [hl] at hke
      have hke' : (k', v') = (k, v) := by simpa using hke
      have h1 : k' = k := congrArg Prod.fst hke'
      have h2 : v' = v := congrArg Prod.snd hke'
      rw [h1, h2] at hl
      have hmem := lookup_mem _ _ _ hl
      exact (regionDataCore_mem_sound get names [] [] k v hmem).resolve_left
        (by simp)

/-- Witness for C7: the first region "A" of the five-region example is still
returned, with the mask `getStub` produced for its file "a". -/
theorem region_data_partial_failure_witness :
    ∃ n ∈ fiveNames, n.1 = "A" ∧ getStub n.2 = Except.ok true :=
  (region_data_partial_failure.1 Bool getStub fiveNames).2.2 "A" true (by
    simp [regionData, regionDataCore, dictInsert, getStub, fiveNames,
      List.insertionSort, List.orderedInsert, List.lookup]
    decide)

/-- C9: the region-data assembly is a pure function — two calls on identical
inputs return identical (bit-identical) results — and the keys of the
returned mapping are in ascending order of canonical region name. -/
theorem region_data_deterministic_sorted :
    ∀ (α : Type) (get : String → Except String α) (names : List (String × String)),
      regionData get names = regionData get names ∧
      List.Sorted (· ≤ ·) (((regionData get names).1).map Prod.fst) := by
  intro α get names
  refine ⟨rfl, ?_⟩
  unfold regionData
  rw [filterMap_lookup_keys]
  exact List.Pairwise.filter _ (List.sorted_insertionSort _ _)
